import Mathlib

/-!
Verification of the capability / compatibility helpers of the `connect`
repository: `parseCapabilities`, `getUnavailableCapabilities`,
`parseRevision` (from the features helper module) and
`gatherWitnessPaths` (from `src/js/core/methods/helpers/cardanoWitnesses.js`).

All definitions are shallow embeddings of the JavaScript source.  JavaScript
strings are modelled as Lean `String`s (or `List Char` where character level
reasoning is needed), optional / possibly-`undefined` values as `Option`,
and the insertion-ordered report object as an association list with unique
keys.
-/

namespace Connect

/-! ## Capability table and `parseCapabilities` -/

/-- The fixed 17-entry capability table (`CAPABILITIES` in the source). -/
def CAPABILITIES : List String := [
    "Capability_Bitcoin",
    "Capability_Bitcoin_like",
    "Capability_Binance",
    "Capability_Cardano",
    "Capability_Crypto",
    "Capability_EOS",
    "Capability_Ethereum",
    "Capability_Lisk",
    "Capability_Monero",
    "Capability_NEM",
    "Capability_Ripple",
    "Capability_Stellar",
    "Capability_Tezos",
    "Capability_U2F",
    "Capability_Shamir",
    "Capability_ShamirGroups",
    "Capability_PassphraseEntry"]

/-- `DEFAULT_CAPABILITIES_T1` from the source (1-based indices). -/
def DEFAULT_CAPABILITIES_T1 : List Int := [1, 2, 5, 7, 10, 12, 14]

/-- `DEFAULT_CAPABILITIES_TT` from the source (1-based indices). -/
def DEFAULT_CAPABILITIES_TT : List Int := [1, 2, 3, 4, 5, 6, 7, 9, 10, 11, 12, 13, 14]

/-- The slice of `Features` read by `parseCapabilities`.  At this point of the
source the `capabilities` field still carries the raw numeric codes reported
by the device (see the source comment: declared `string[]` but in fact
`number[]`); an absent field is `none`.  `firmware_present` may be absent
(`none`), `true` or `false`; the source only tests `=== false`. -/
structure ParseFeatures where
  firmware_present : Option Bool
  major_version : Nat
  capabilities : Option (List Int)
deriving DecidableEq

/-- The per-code filter of `parseCapabilities`:
`(c) => (CAPABILITIES[c - 1] ? [CAPABILITIES[c - 1]] : [])`.
A JavaScript array access at a negative or too-large index yields
`undefined`, hence the empty contribution. -/
def capFilter (c : Int) : List String :=
  if 1 ≤ c then (CAPABILITIES.get? (c.toNat - 1)).toList else []

/-- Shallow embedding of `parseCapabilities`.  An absent `features` argument
is modelled by `none`. -/
def parseCapabilities (features : Option ParseFeatures) : List String :=
  match features with
  | none => []
  | some f =>
    if f.firmware_present = some false then []
    else
      match f.capabilities with
      | none =>
        (if f.major_version = 1 then DEFAULT_CAPABILITIES_T1 else DEFAULT_CAPABILITIES_TT).flatMap
          capFilter
      | some [] =>
        (if f.major_version = 1 then DEFAULT_CAPABILITIES_T1 else DEFAULT_CAPABILITIES_TT).flatMap
          capFilter
      | some cs => cs.flatMap capFilter

/-- The claim-side description of the per-code lookup: the table entry at the
1-based position `c`, with out-of-range codes (`c ≤ 0` or `c > 17`) dropped. -/
def lookupCapability (c : Int) : Option String :=
  if 1 ≤ c ∧ c ≤ 17 then CAPABILITIES.get? (c.toNat - 1) else none

theorem capFilter_eq_toList (c : Int) : capFilter c = (lookupCapability c).toList := by
  unfold capFilter lookupCapability
  by_cases h1 : 1 ≤ c
  · by_cases h2 : c ≤ 17
    · simp [h1, h2]
    · have hnone : CAPABILITIES.get? (c.toNat - 1) = none := by
        apply List.get?_eq_none.mpr
        have hlen : CAPABILITIES.length = 17 := by rfl
        omega
      rw [if_pos h1, if_neg (fun h : 1 ≤ c ∧ c ≤ 17 => h2 h.2), hnone]
  · rw [if_neg h1, if_neg (fun h : 1 ≤ c ∧ c ≤ 17 => h1 h.1)]
    rfl

theorem flatMap_toList_eq_filterMap {α β : Type} (f : α → Option β) (l : List α) :
    l.flatMap (fun a => (f a).toList) = l.filterMap f := by
  induction l with
  | nil => rfl
  | cons a t ih => cases h : f a <;> simp [List.flatMap_cons, h, ih, List.filterMap_cons]

/-- **C5.** For every device state with firmware present, an empty or absent
`rawCapabilityCodes` sequence, and major version 1, `parseCapabilities`
returns exactly the capabilities at the 1-based indices 1, 2, 5, 7, 10, 12, 14
of the fixed 17-entry capability table, in that order. -/
theorem c5_default_capabilities_t1 (f : ParseFeatures)
    (hfw : f.firmware_present ≠ some false)
    (hcaps : f.capabilities = none ∨ f.capabilities = some [])
    (hmaj : f.major_version = 1) :
    parseCapabilities (some f) =
      (([1, 2, 5, 7, 10, 12, 14] : List Nat).map fun i => CAPABILITIES.getD (i - 1) "") := by
  obtain ⟨fp, mv, caps⟩ := f
  simp only at hmaj hcaps
  subst hmaj
  rcases hcaps with h | h <;> subst h <;>
    · simp only [parseCapabilities]
      rw [if_neg hfw]
      decide

theorem c5_default_capabilities_t1_witness :
    ((some true : Option Bool) ≠ some false) ∧
      parseCapabilities (some ⟨some true, 1, none⟩) =
        (([1, 2, 5, 7, 10, 12, 14] : List Nat).map fun i => CAPABILITIES.getD (i - 1) "") :=
  ⟨by decide, c5_default_capabilities_t1 ⟨some true, 1, none⟩ (by decide) (Or.inl rfl) rfl⟩

/-- **C6.** For every input where the device state is absent or its
`firmware_present` flag equals `false`, `parseCapabilities` returns the empty
capability set. -/
theorem c6_no_firmware_empty (features : Option ParseFeatures)
    (h : features = none ∨ ∃ f, features = some f ∧ f.firmware_present = some false) :
    parseCapabilities features = [] := by
  rcases h with h | ⟨f, hf, hfp⟩
  · subst h; rfl
  · subst hf; simp [parseCapabilities, hfp]

theorem c6_no_firmware_empty_witness :
    ((some (⟨some false, 1, some [1, 2, 3]⟩ : ParseFeatures) = none ∨
        ∃ f, some (⟨some false, 1, some [1, 2, 3]⟩ : ParseFeatures) = some f ∧
          f.firmware_present = some false)) ∧
      parseCapabilities (some ⟨some false, 1, some [1, 2, 3]⟩) = [] :=
  ⟨Or.inr ⟨_, rfl, rfl⟩, c6_no_firmware_empty _ (Or.inr ⟨_, rfl, rfl⟩)⟩

/-- **C7.** For every nonempty sequence of reported capability codes,
`parseCapabilities` maps each code to the table entry at the 1-based position
`code`, dropping every out-of-range code (`code ≤ 0` or `code > 17`) instead
of erroring; the Lean embedding is a total function, modelling that the
source never throws. -/
theorem c7_code_mapping (f : ParseFeatures) (cs : List Int)
    (hfw : f.firmware_present ≠ some false)
    (hcaps : f.capabilities = some cs) (hne : cs ≠ []) :
    parseCapabilities (some f) = cs.filterMap lookupCapability := by
  obtain ⟨fp, mv, caps⟩ := f
  have hcaps' : caps = some cs := hcaps
  subst hcaps'
  rcases cs with _ | ⟨c, cs'⟩
  · exact absurd rfl hne
  · simp only [parseCapabilities]
    rw [if_neg hfw]
    show (c :: cs').flatMap capFilter = _
    rw [show capFilter = fun c => (lookupCapability c).toList from funext capFilter_eq_toList]
    exact flatMap_toList_eq_filterMap lookupCapability (c :: cs')

theorem c7_code_mapping_witness :
    (([0, 1, 99, 17] : List Int) ≠ []) ∧
      parseCapabilities (some ⟨none, 2, some [0, 1, 99, 17]⟩) =
        ([0, 1, 99, 17] : List Int).filterMap lookupCapability :=
  ⟨by decide, c7_code_mapping _ _ (by decide) rfl (by decide)⟩

/-! ## Revision normalizer (`parseRevision`) -/

/-- `true` for a decimal digit character `0`–`9`. -/
def isDigitChar (c : Char) : Bool := 48 ≤ c.toNat && c.toNat ≤ 57

/-- `true` for a hexadecimal letter `a`–`f` or `A`–`F` (the regexes in the
source carry the case-insensitive `i` flag). -/
def isHexLetter (c : Char) : Bool :=
  (97 ≤ c.toNat && c.toNat ≤ 102) || (65 ≤ c.toNat && c.toNat ≤ 70)

/-- `true` for a character matched by the source's `[a-f0-9]` classes
(case-insensitive). -/
def isHexDigitChar (c : Char) : Bool := isDigitChar c || isHexLetter c

/-- The test `/^(?=.*[a-f])([a-f0-9]*)$/gi` of the source: every character is
a hex digit and at least one is a hex letter. -/
def regexStdNotation (s : List Char) : Bool := s.any isHexLetter && s.all isHexDigitChar

/-- The test `/^([a-f0-9])*$/gi` of the source: every character is a hex
digit. -/
def regexHexDigits (s : List Char) : Bool := s.all isHexDigitChar

/-- Numeric value of a hexadecimal digit character (0 for anything else). -/
def hexVal (c : Char) : Nat :=
  if 48 ≤ c.toNat ∧ c.toNat ≤ 57 then c.toNat - 48
  else if 97 ≤ c.toNat ∧ c.toNat ≤ 102 then c.toNat - 87
  else if 65 ≤ c.toNat ∧ c.toNat ≤ 70 then c.toNat - 55
  else 0

/-- `Buffer.from(s, 'hex')` (Node builtin used by the source): decode
hexadecimal character pairs into bytes, stopping at the first invalid pair
and dropping a trailing unpaired character. -/
def hexDecodeBytes : List Char → List Nat
  | c1 :: c2 :: rest =>
    if isHexDigitChar c1 && isHexDigitChar c2 then
      (16 * hexVal c1 + hexVal c2) :: hexDecodeBytes rest
    else []
  | _ => []

/-- `buffer.toString('utf-8')` (Node builtin used by the source), modelled on
the byte shapes the function can act on: a byte below `0x80` decodes to the
corresponding ASCII character; any higher byte is replaced by `U+FFFD`.
(A real UTF-8 decoder can turn high bytes into other non-ASCII characters,
but never into characters of the hex-digit range, so the subsequent regex
test — the only consumer of this text — gives the same answer.) -/
def bytesToText (bs : List Nat) : List Char :=
  bs.map fun b => if b < 128 then Char.ofNat b else Char.ofNat 0xFFFD

/-- Shallow embedding of `parseRevision`; strings are modelled as their
character lists, an absent (`null`) revision as `none`.  The JavaScript
falsiness test `!revision` also catches the empty string. -/
def parseRevision (revision : Option (List Char)) : Option (List Char) :=
  match revision with
  | none => none
  | some r =>
    if r = [] then none
    else if regexStdNotation r then some r
    else
      let revisionUtf8 := bytesToText (hexDecodeBytes r)
      if regexHexDigits revisionUtf8 then some revisionUtf8 else some r

/-- Hexadecimal digit character for a nibble value (lowercase). -/
def nibbleChar : Nat → Char
  | 0 => '0'
  | 1 => '1'
  | 2 => '2'
  | 3 => '3'
  | 4 => '4'
  | 5 => '5'
  | 6 => '6'
  | 7 => '7'
  | 8 => '8'
  | 9 => '9'
  | 10 => 'a'
  | 11 => 'b'
  | 12 => 'c'
  | 13 => 'd'
  | 14 => 'e'
  | 15 => 'f'
  | _ => '0'

/-- The claim-side byte-to-hex encoder for one character: the character's
code becomes two lowercase hexadecimal digits ("encoding r's bytes as a hex
string"). -/
def hexEncodeChar (c : Char) : List Char :=
  [nibbleChar (c.toNat / 16 % 16), nibbleChar (c.toNat % 16)]

/-- The claim-side hex encoding of a string's bytes. -/
def hexEncode (s : List Char) : List Char := s.flatMap hexEncodeChar

theorem nibbleChar_hex {n : Nat} (h : n ≤ 15) :
    isHexDigitChar (nibbleChar n) = true ∧ hexVal (nibbleChar n) = n := by
  interval_cases n <;> exact ⟨by decide, by decide⟩

theorem nibbleChar_not_letter {n : Nat} (h : n ≤ 9) : isHexLetter (nibbleChar n) = false := by
  interval_cases n <;> decide

theorem toNat_range_of_hex {c : Char} (h : isHexDigitChar c = true) :
    (48 ≤ c.toNat ∧ c.toNat ≤ 57) ∨ (97 ≤ c.toNat ∧ c.toNat ≤ 102) ∨
      (65 ≤ c.toNat ∧ c.toNat ≤ 70) := by
  simp only [isHexDigitChar, isDigitChar, isHexLetter, Bool.or_eq_true,
    Bool.and_eq_true, decide_eq_true_eq] at h
  omega

theorem hexEncode_no_letter (r : List Char) (h : ∀ c ∈ r, isHexDigitChar c = true) :
    (hexEncode r).any isHexLetter = false := by
  induction r with
  | nil => rfl
  | cons c t ih =>
    have hc := toNat_range_of_hex (h c (List.mem_cons_self c t))
    have hhi : c.toNat / 16 % 16 ≤ 9 := by omega
    have hlo : c.toNat % 16 ≤ 9 := by omega
    have ht := ih fun x hx => h x (List.mem_cons_of_mem c hx)
    simp [hexEncode, hexEncodeChar, List.any_cons, nibbleChar_not_letter hhi,
      nibbleChar_not_letter hlo] at ht ⊢
    simpa [hexEncode] using ht

theorem hexDecodeBytes_hexEncode (r : List Char) (h : ∀ c ∈ r, isHexDigitChar c = true) :
    hexDecodeBytes (hexEncode r) = r.map Char.toNat := by
  induction r with
  | nil => rfl
  | cons c t ih =>
    have hc := toNat_range_of_hex (h c (List.mem_cons_self c t))
    have hhi := nibbleChar_hex (n := c.toNat / 16 % 16) (by omega)
    have hlo := nibbleChar_hex (n := c.toNat % 16) (by omega)
    have hbyte : 16 * (c.toNat / 16 % 16) + c.toNat % 16 = c.toNat := by omega
    show hexDecodeBytes (nibbleChar (c.toNat / 16 % 16) :: nibbleChar (c.toNat % 16) ::
        hexEncode t) = c.toNat :: t.map Char.toNat
    rw [hexDecodeBytes, if_pos (by rw [hhi.1, hlo.1]; rfl), hhi.2, hlo.2, hbyte,
      ih fun x hx => h x (List.mem_cons_of_mem c hx)]

theorem bytesToText_map_toNat (r : List Char) (h : ∀ c ∈ r, isHexDigitChar c = true) :
    bytesToText (r.map Char.toNat) = r := by
  induction r with
  | nil => rfl
  | cons c t ih =>
    have hc := toNat_range_of_hex (h c (List.mem_cons_self c t))
    have hlt : c.toNat < 128 := by omega
    simp [bytesToText, hlt, Char.ofNat_toNat] at ih ⊢
    exact ih fun x hx => h x (List.mem_cons_of_mem c hx)

/-- **C8.** For every string `r` whose characters are all hex digits and which
contains at least one letter `a`–`f`, hex-encoding `r`'s bytes and then
applying `parseRevision` to that encoding returns exactly `r`. -/
theorem c8_revision_roundtrip (r : List Char)
    (hhex : ∀ c ∈ r, isHexDigitChar c = true)
    (hletter : ∃ c ∈ r, isHexLetter c = true) :
    parseRevision (some (hexEncode r)) = some r := by
  obtain ⟨c0, hc0, _⟩ := hletter
  have hrne : r ≠ [] := by
    intro h0
    rw [h0] at hc0
    exact absurd hc0 (List.not_mem_nil c0)
  have hene : hexEncode r ≠ [] := by
    cases r with
    | nil => exact absurd rfl hrne
    | cons c t => simp [hexEncode, hexEncodeChar]
  have hstd : regexStdNotation (hexEncode r) = false := by
    unfold regexStdNotation
    rw [hexEncode_no_letter r hhex]
    rfl
  have hdec : bytesToText (hexDecodeBytes (hexEncode r)) = r := by
    rw [hexDecodeBytes_hexEncode r hhex, bytesToText_map_toNat r hhex]
  have hall : regexHexDigits r = true :=
    List.all_eq_true.mpr hhex
  show (if hexEncode r = [] then none
      else if regexStdNotation (hexEncode r) = true then some (hexEncode r)
      else if regexHexDigits (bytesToText (hexDecodeBytes (hexEncode r))) = true then
        some (bytesToText (hexDecodeBytes (hexEncode r)))
      else some (hexEncode r)) = some r
  rw [if_neg hene, if_neg (by rw [hstd]; exact Bool.false_ne_true), hdec, if_pos hall]

theorem c8_revision_roundtrip_witness :
    (∀ c ∈ ['a', '0'], isHexDigitChar c = true) ∧ (∃ c ∈ ['a', '0'], isHexLetter c = true) ∧
      parseRevision (some (hexEncode ['a', '0'])) = some ['a', '0'] :=
  ⟨by decide, by decide,
    c8_revision_roundtrip ['a', '0'] (by decide) (by decide)⟩

/-! ## Version comparison (`versionUtils`, spec-modelled) -/

/-- Modelled from the spec: the source imports `versionCompare` from
`./versionUtils`, a repository file not included under `src/`.  Per spec
§4.1 it compares dotted numeric versions segment by segment, left to right,
zero-padding the shorter sequence, and returns a positive result when the
first argument is newer.  Version strings are modelled throughout as their
parsed numeric segment lists (so the string `"2.0.0"` is `[2, 0, 0]` and the
one-character string `"0"` is `[0]`).  The fuel argument keeps the recursion
structural; `a.length + b.length` steps always suffice. -/
def versionCompareFuel : Nat → List Nat → List Nat → Int
  | 0, _, _ => 0
  | _ + 1, [], [] => 0
  | fuel + 1, a, b =>
    if a.headD 0 < b.headD 0 then -1
    else if b.headD 0 < a.headD 0 then 1
    else versionCompareFuel fuel a.tail b.tail

/-- Modelled from the spec: see `versionCompareFuel`. -/
def versionCompare (a b : List Nat) : Int :=
  versionCompareFuel (a.length + b.length) a b

/-! ## The unavailability report -/

/-- The report object `list` of `getUnavailableCapabilities`: a JavaScript
object used as an insertion-ordered string map, modelled as an association
list with unique keys. -/
abbrev Report := List (String × String)

/-- `String.prototype.toLowerCase()` as used on coin shortcuts, modelled
character by character. -/
def toLowerString (s : String) : String := ⟨s.data.map Char.toLower⟩

/-- Property write `list[k] = v`: an existing key keeps its position and gets
the new value; a new key is appended. -/
def setKey : Report → String → String → Report
  | [], k, v => [(k, v)]
  | (k', v') :: rest, k, v =>
    if k' = k then (k', v) :: rest else (k', v') :: setKey rest k v

/-- Property read `list[k]`. -/
def getKey : Report → String → Option String
  | [], _ => none
  | (k', v') :: rest, k => if k' = k then some v' else getKey rest k

/-! ## Data model of `getUnavailableCapabilities` -/

/-- A value of the `CoinInfo.support` object under some model key.  The
source only distinguishes string values (version strings, kept as parsed
segment lists) from everything else (`typeof ... !== 'string'`). -/
inductive SupportValue where
  | vstr : List Nat → SupportValue
  | nonString : SupportValue
deriving DecidableEq

/-- First-match association-list lookup (JavaScript object property read). -/
def assocLookup : List (String × SupportValue) → String → Option SupportValue
  | [], _ => none
  | (k', v) :: rest, k => if k' = k then some v else assocLookup rest k

/-- The slice of `CoinInfo` read by `getUnavailableCapabilities`.  `support`
is the per-model support object (absent = `none`). -/
structure CoinInfo where
  type : String
  name : String
  shortcut : String
  support : Option (List (String × SupportValue))
deriving DecidableEq

/-- One element of the `support` argument (`config.supportedFirmware`
entries): an optional capability-name group and optional per-major-version
`min`/`max` version arrays whose entries may be absent. -/
structure SupportEntry where
  capabilities : Option (List String)
  min : Option (List (Option (List Nat)))
  max : Option (List (Option (List Nat)))
deriving DecidableEq

/-- The slice of `Features` read by `getUnavailableCapabilities`; here the
`capabilities` field carries the symbolic capability names (the parsed form),
and an absent/falsy field is `none`. -/
structure ResolveFeatures where
  capabilities : Option (List String)
  major_version : Nat
  minor_version : Nat
  patch_version : Nat
deriving DecidableEq

/-- `s.min ? s.min[fw[0] - 1] : null` — the bound for the device's major
version: absent array, out-of-range index (including the `-1` produced by a
major version of `0`) or an absent entry all give `none`. -/
def boundFor (bounds : Option (List (Option (List Nat)))) (fw0 : Nat) :
    Option (List Nat) :=
  match bounds with
  | none => none
  | some arr => if 1 ≤ fw0 then arr.getD (fw0 - 1) none else none

/-- The stage-1 failure test
`!info.support || typeof info.support[key] !== 'string'`. -/
def noStringSupport (key : String) (info : CoinInfo) : Bool :=
  match info.support with
  | none => true
  | some entries =>
    match assocLookup entries key with
    | some (SupportValue.vstr _) => false
    | _ => true

/-- The stage-2 test: the coin's required capability (kind-based dispatch
with the special-cased shortcuts) is missing from the device's capability
list. -/
def capabilityMissing (capabilities : List String) (info : CoinInfo) : Bool :=
  if info.type = "bitcoin" then
    if info.name = "Bitcoin" ∨ info.name = "Testnet" then
      !capabilities.contains "Capability_Bitcoin"
    else !capabilities.contains "Capability_Bitcoin_like"
  else if info.type = "ethereum" then !capabilities.contains "Capability_Ethereum"
  else if info.type = "nem" then !capabilities.contains "Capability_NEM"
  else if info.shortcut = "BNB" then !capabilities.contains "Capability_Binance"
  else if info.shortcut = "XRP" ∨ info.shortcut = "tXRP" then
    !capabilities.contains "Capability_Ripple"
  else !capabilities.contains ("Capability_" ++ info.name)

/-- `info.support[key]` as a version value; only evaluated by the source on
coins that already passed the stage-1 string test, so the fallback `[]` is
never reached there. -/
def supportVersion (key : String) (info : CoinInfo) : List Nat :=
  match info.support with
  | none => []
  | some entries =>
    match assocLookup entries key with
    | some (SupportValue.vstr v) => v
    | _ => []

/-! ## The four stages of `getUnavailableCapabilities`

The source's stage 1 is a `filter` with a side effect on `list`; it is
split here into the written report (`stage1List`) and the surviving coins
(`supportedCoins`), iterated in the same order. -/

/-- Stage 1 writes: coins without a string support entry for the model key
are marked `"no-support"`. -/
def stage1List (key : String) (coins : List CoinInfo) : Report :=
  coins.foldl
    (fun l info =>
      if noStringSupport key info then setKey l (toLowerString info.shortcut) "no-support" else l)
    []

/-- The coins surviving stage 1 (`supported` in the source). -/
def supportedCoins (key : String) (coins : List CoinInfo) : List CoinInfo :=
  coins.filter fun info => !noStringSupport key info

/-- The coins filtered out in stage 2 (`unavailable` in the source). -/
def unavailableCoins (capabilities : List String) (key : String) (coins : List CoinInfo) :
    List CoinInfo :=
  (supportedCoins key coins).filter (capabilityMissing capabilities)

/-- The report after stage 2: every stage-2 coin is marked
`"no-capability"`. -/
def stage2List (capabilities : List String) (key : String) (coins : List CoinInfo) : Report :=
  (unavailableCoins capabilities key coins).foldl
    (fun l info => setKey l (toLowerString info.shortcut) "no-capability")
    (stage1List key coins)

/-- The report after stage 3: of the coins that passed stages 1 and 2, those
whose minimum supported version is newer than the firmware are marked
`"update-required"`.  (The source also pushes these coins onto `unavailable`,
which is not read again.) -/
def stage3List (capabilities : List String) (fw : List Nat) (key : String)
    (coins : List CoinInfo) : Report :=
  ((supportedCoins key coins).filter
      fun info => !decide (info ∈ unavailableCoins capabilities key coins)).foldl
    (fun l info =>
      if versionCompare (supportVersion key info) fw > 0 then
        setKey l (toLowerString info.shortcut) "update-required"
      else l)
    (stage2List capabilities key coins)

/-- The stage-4 minimum-bound branch for one support entry:
`if (min && (min === '0' || versionCompare(min, fw) > 0)) { ... }` — the
sentinel `"0"` (modelled `[0]`) marks every capability of the group
`"no-support"`, a minimum newer than the firmware marks them
`"update-required"`. -/
def minBoundMark (fw : List Nat) (caps : List String) (l : Report)
    (minB : Option (List Nat)) : Report :=
  match minB with
  | some m =>
    if m = [0] ∨ versionCompare m fw > 0 then
      caps.foldl
        (fun l c => setKey l c (if m = [0] then "no-support" else "update-required")) l
    else l
  | none => l

/-- The stage-4 maximum-bound branch for one support entry:
`if (max && versionCompare(max, fw) < 0) { ... }` — a maximum older than the
firmware marks every capability of the group `"trezor-connect-outdated"`. -/
def maxBoundMark (fw : List Nat) (caps : List String) (l : Report)
    (maxB : Option (List Nat)) : Report :=
  match maxB with
  | some m =>
    if versionCompare m fw < 0 then
      caps.foldl (fun l c => setKey l c "trezor-connect-outdated") l
    else l
  | none => l

/-- Stage 4, one entry of `config.supportedFirmware`: version-range gating of
whole capability groups, keyed by capability name; the minimum branch runs
first, then the maximum branch over its result. -/
def applySupportEntry (fw : List Nat) (l : Report) (s : SupportEntry) : Report :=
  match s.capabilities with
  | none => l
  | some caps =>
    maxBoundMark fw caps
      (minBoundMark fw caps l (boundFor s.min (fw.headD 0)))
      (boundFor s.max (fw.headD 0))

/-- `const fw = [features.major_version, features.minor_version,
features.patch_version]`. -/
def fwTriple (features : ResolveFeatures) : List Nat :=
  [features.major_version, features.minor_version, features.patch_version]

/-- `` const key = `trezor${features.major_version}` ``. -/
def modelKey (features : ResolveFeatures) : String :=
  "trezor" ++ toString features.major_version

/-- Shallow embedding of `getUnavailableCapabilities`. -/
def getUnavailableCapabilities (features : ResolveFeatures) (coins : List CoinInfo)
    (support : List SupportEntry) : Report :=
  match features.capabilities with
  | none => []
  | some capabilities =>
    let fw := fwTriple features
    let key := modelKey features
    support.foldl (applySupportEntry fw) (stage3List capabilities fw key coins)

/-! ## Report lemmas -/

theorem getKey_setKey_self (l : Report) (k v : String) : getKey (setKey l k v) k = some v := by
  induction l with
  | nil => simp [setKey, getKey]
  | cons p rest ih =>
    obtain ⟨k2, v2⟩ := p
    by_cases h : k2 = k
    · simp [setKey, getKey, h]
    · simp [setKey, getKey, h, ih]

theorem getKey_setKey_ne (l : Report) (k kr v : String) (h : kr ≠ k) :
    getKey (setKey l k v) kr = getKey l kr := by
  have hne : ¬ k = kr := fun hh => h hh.symm
  induction l with
  | nil => simp [setKey, getKey, hne]
  | cons p rest ih =>
    obtain ⟨k2, v2⟩ := p
    by_cases h1 : k2 = k
    · subst h1
      simp [setKey, getKey, hne]
    · simp [setKey, getKey, h1, ih]

theorem getKey_foldIf_untouched {α : Type} (P : α → Prop) [DecidablePred P]
    (g : α → String) (v : String) (ms : List α) (l0 : Report) (k : String)
    (h : ∀ j ∈ ms, P j → g j ≠ k) :
    getKey (ms.foldl (fun l j => if P j then setKey l (g j) v else l) l0) k = getKey l0 k := by
  induction ms generalizing l0 with
  | nil => rfl
  | cons j t ih =>
    rw [List.foldl_cons, ih _ fun x hx hp => h x (List.mem_cons_of_mem j hx) hp]
    by_cases hp : P j
    · rw [if_pos hp,
        getKey_setKey_ne l0 (g j) k v fun hk => h j (List.mem_cons_self j t) hp hk.symm]
    · rw [if_neg hp]

theorem getKey_foldIf_written {α : Type} (P : α → Prop) [DecidablePred P]
    (g : α → String) (v : String) (ms : List α) (l0 : Report) (k : String)
    (h : ∃ j ∈ ms, P j ∧ g j = k) :
    getKey (ms.foldl (fun l j => if P j then setKey l (g j) v else l) l0) k = some v := by
  induction ms generalizing l0 with
  | nil =>
    obtain ⟨j, hj, _⟩ := h
    exact absurd hj (List.not_mem_nil j)
  | cons j t ih =>
    rw [List.foldl_cons]
    by_cases ht : ∃ x ∈ t, P x ∧ g x = k
    · exact ih _ ht
    · obtain ⟨x, hx, hpx, hgx⟩ := h
      rcases List.mem_cons.mp hx with rfl | hxt
      · rw [getKey_foldIf_untouched P g v t _ k
            fun y hy hpy hgy => ht ⟨y, hy, hpy, hgy⟩,
          if_pos hpx, hgx, getKey_setKey_self]
      · exact absurd ⟨x, hxt, hpx, hgx⟩ ht

theorem getKey_foldSet_untouched {α : Type} (g : α → String) (v : String)
    (ms : List α) (l0 : Report) (k : String) (h : ∀ j ∈ ms, g j ≠ k) :
    getKey (ms.foldl (fun l j => setKey l (g j) v) l0) k = getKey l0 k := by
  induction ms generalizing l0 with
  | nil => rfl
  | cons j t ih =>
    rw [List.foldl_cons, ih _ fun x hx => h x (List.mem_cons_of_mem j hx),
      getKey_setKey_ne l0 (g j) k v fun hk => h j (List.mem_cons_self j t) hk.symm]

theorem getKey_foldSet_written {α : Type} (g : α → String) (v : String)
    (ms : List α) (l0 : Report) (k : String) (h : ∃ j ∈ ms, g j = k) :
    getKey (ms.foldl (fun l j => setKey l (g j) v) l0) k = some v := by
  induction ms generalizing l0 with
  | nil =>
    obtain ⟨j, hj, _⟩ := h
    exact absurd hj (List.not_mem_nil j)
  | cons j t ih =>
    rw [List.foldl_cons]
    by_cases ht : ∃ x ∈ t, g x = k
    · exact ih _ ht
    · obtain ⟨x, hx, hgx⟩ := h
      rcases List.mem_cons.mp hx with rfl | hxt
      · rw [getKey_foldSet_untouched g v t _ k fun y hy hgy => ht ⟨y, hy, hgy⟩,
          hgx, getKey_setKey_self]
      · exact absurd ⟨x, hxt, hgx⟩ ht

/-! ## Key-uniqueness of the report -/

/-- The keys of a report, in order. -/
def reportKeys (l : Report) : List String := l.map Prod.fst

theorem setKey_cons_pos (rest : Report) (k2 v2 k v : String) (h : k2 = k) :
    setKey ((k2, v2) :: rest) k v = (k2, v) :: rest := by
  simp [setKey, h]

theorem setKey_cons_neg (rest : Report) (k2 v2 k v : String) (h : ¬ k2 = k) :
    setKey ((k2, v2) :: rest) k v = (k2, v2) :: setKey rest k v := by
  simp [setKey, h]

theorem mem_reportKeys_setKey (l : Report) (k v x : String) :
    x ∈ reportKeys (setKey l k v) ↔ x ∈ reportKeys l ∨ x = k := by
  induction l with
  | nil => simp [setKey, reportKeys]
  | cons p rest ih =>
    obtain ⟨k2, v2⟩ := p
    simp only [reportKeys] at ih ⊢
    by_cases h : k2 = k
    · subst h
      rw [setKey_cons_pos rest k2 v2 k2 v rfl]
      simp only [List.map_cons, List.mem_cons]
      tauto
    · rw [setKey_cons_neg rest k2 v2 k v h]
      simp only [List.map_cons, List.mem_cons, ih]
      tauto

theorem nodup_reportKeys_setKey (l : Report) (k v : String)
    (h : (reportKeys l).Nodup) : (reportKeys (setKey l k v)).Nodup := by
  induction l with
  | nil => simp [setKey, reportKeys]
  | cons p rest ih =>
    obtain ⟨k2, v2⟩ := p
    rw [reportKeys, List.map_cons, List.nodup_cons] at h
    by_cases hk : k2 = k
    · subst hk
      rw [setKey_cons_pos rest k2 v2 k2 v rfl, reportKeys, List.map_cons, List.nodup_cons]
      exact h
    · rw [setKey_cons_neg rest k2 v2 k v hk, reportKeys, List.map_cons, List.nodup_cons]
      refine ⟨fun hmem => ?_, ih h.2⟩
      rcases (mem_reportKeys_setKey rest k v k2).mp hmem with h1 | h1
      · exact h.1 h1
      · exact hk h1

theorem nodup_reportKeys_foldl {α : Type} (step : Report → α → Report)
    (hstep : ∀ l j, (reportKeys l).Nodup → (reportKeys (step l j)).Nodup)
    (ms : List α) (l0 : Report) (h0 : (reportKeys l0).Nodup) :
    (reportKeys (ms.foldl step l0)).Nodup := by
  induction ms generalizing l0 with
  | nil => exact h0
  | cons j t ih => exact ih _ (hstep l0 j h0)

theorem nodup_reportKeys_stage3 (caps : List String) (fw : List Nat) (key : String)
    (coins : List CoinInfo) : (reportKeys (stage3List caps fw key coins)).Nodup := by
  unfold stage3List stage2List stage1List
  refine nodup_reportKeys_foldl _ (fun l j h => ?_) _ _ ?_
  · dsimp only
    split
    · exact nodup_reportKeys_setKey _ _ _ h
    · exact h
  · refine nodup_reportKeys_foldl _ (fun l j h => nodup_reportKeys_setKey _ _ _ h) _ _ ?_
    refine nodup_reportKeys_foldl _ (fun l j h => ?_) _ _ ?_
    · dsimp only
      split
      · exact nodup_reportKeys_setKey _ _ _ h
      · exact h
    · simp [reportKeys]

theorem nodup_reportKeys_foldSet (v : String) (caps : List String) (l : Report)
    (h : (reportKeys l).Nodup) :
    (reportKeys (caps.foldl (fun l c => setKey l c v) l)).Nodup :=
  nodup_reportKeys_foldl _ (fun _ _ hh => nodup_reportKeys_setKey _ _ _ hh) _ _ h

theorem nodup_reportKeys_minBoundMark (fw : List Nat) (caps : List String) (l : Report)
    (minB : Option (List Nat)) (h : (reportKeys l).Nodup) :
    (reportKeys (minBoundMark fw caps l minB)).Nodup := by
  cases minB with
  | none => exact h
  | some m =>
    show (reportKeys (if m = [0] ∨ versionCompare m fw > 0 then
        caps.foldl
          (fun l c => setKey l c (if m = [0] then "no-support" else "update-required")) l
      else l)).Nodup
    by_cases hc : m = [0] ∨ versionCompare m fw > 0
    · rw [if_pos hc]
      exact nodup_reportKeys_foldSet _ _ _ h
    · rw [if_neg hc]
      exact h

theorem nodup_reportKeys_maxBoundMark (fw : List Nat) (caps : List String) (l : Report)
    (maxB : Option (List Nat)) (h : (reportKeys l).Nodup) :
    (reportKeys (maxBoundMark fw caps l maxB)).Nodup := by
  cases maxB with
  | none => exact h
  | some m =>
    show (reportKeys (if versionCompare m fw < 0 then
        caps.foldl (fun l c => setKey l c "trezor-connect-outdated") l
      else l)).Nodup
    by_cases hc : versionCompare m fw < 0
    · rw [if_pos hc]
      exact nodup_reportKeys_foldSet _ _ _ h
    · rw [if_neg hc]
      exact h

theorem nodup_reportKeys_applySupportEntry (fw : List Nat) (l : Report) (s : SupportEntry)
    (h : (reportKeys l).Nodup) : (reportKeys (applySupportEntry fw l s)).Nodup := by
  obtain ⟨scaps, smin, smax⟩ := s
  cases scaps with
  | none => exact h
  | some caps =>
    exact nodup_reportKeys_maxBoundMark _ _ _ _
      (nodup_reportKeys_minBoundMark _ _ _ _ h)

theorem nodup_reportKeys_getUnavailable (features : ResolveFeatures) (coins : List CoinInfo)
    (support : List SupportEntry) :
    (reportKeys (getUnavailableCapabilities features coins support)).Nodup := by
  unfold getUnavailableCapabilities
  cases features.capabilities with
  | none => simp [reportKeys]
  | some caps =>
    exact nodup_reportKeys_foldl _
      (fun l j hh => nodup_reportKeys_applySupportEntry _ _ _ hh) _ _
      (nodup_reportKeys_stage3 _ _ _ _)

theorem eq_of_nodup_map {α β : Type} (g : α → β) (l : List α)
    (h : (l.map g).Nodup) :
    ∀ a ∈ l, ∀ b ∈ l, g a = g b → a = b := by
  induction l with
  | nil =>
    intro a ha
    exact absurd ha (List.not_mem_nil a)
  | cons x t ih =>
    intro a ha b hb hab
    rw [List.map_cons, List.nodup_cons] at h
    rcases List.mem_cons.mp ha with rfl | hat
    · rcases List.mem_cons.mp hb with rfl | hbt
      · rfl
      · exact absurd (hab ▸ List.mem_map_of_mem g hbt) h.1
    · rcases List.mem_cons.mp hb with rfl | hbt
      · exact absurd (hab ▸ List.mem_map_of_mem g hat) h.1
      · exact ih h.2 a hat b hbt hab

/-- **C4.** For every asset catalog and support-range table, a device state
whose features have no (absent or falsy) `capabilities` field makes
`getUnavailableCapabilities` return the empty report: nothing at all is
marked, not even assets without a support entry for the model. -/
theorem c4_no_capabilities_empty_report (coins : List CoinInfo)
    (support : List SupportEntry) (mv miv pv : Nat) :
    getUnavailableCapabilities ⟨none, mv, miv, pv⟩ coins support = [] := rfl

/-! ## C1 and C2: persistence of stage-1/2 marks through stage 3 -/

theorem mem_supportedCoins {key : String} {coins : List CoinInfo} {j : CoinInfo}
    (h : j ∈ supportedCoins key coins) :
    j ∈ coins ∧ noStringSupport key j = false := by
  have h1 := List.mem_filter.mp h
  refine ⟨h1.1, ?_⟩
  have h2 := h1.2
  cases hb : noStringSupport key j
  · rfl
  · rw [hb] at h2
    exact absurd h2 (by decide)

/-- **C1** (amended).  The stages-1–3 report (`stage3List`, the report
`getUnavailableCapabilities` hands to stage 4) has at most one entry — hence
at most one reason — per key, and stage 3 never overwrites a stage-2 mark:
an asset marked `"no-capability"` keeps that reason through stage 3 even if
its version-range check also fails, because stage 3 only iterates over coins
outside `unavailable`.  Lower-cased shortcuts are assumed pairwise distinct
(they are the report's identifying keys). -/
theorem c1_stage_overwrite (f : ResolveFeatures) (coins : List CoinInfo)
    (caps : List String) (info : CoinInfo)
    (_hcaps : f.capabilities = some caps)
    (hnd : (coins.map fun i => toLowerString i.shortcut).Nodup)
    (hmem : info ∈ coins)
    (hok : noStringSupport (modelKey f) info = false)
    (hmiss : capabilityMissing caps info = true) :
    (reportKeys (stage3List caps (fwTriple f) (modelKey f) coins)).Nodup ∧
      getKey (stage3List caps (fwTriple f) (modelKey f) coins)
        (toLowerString info.shortcut) = some "no-capability" := by
  refine ⟨nodup_reportKeys_stage3 _ _ _ _, ?_⟩
  have inj := eq_of_nodup_map (fun i => toLowerString i.shortcut) coins hnd
  have hsup : info ∈ supportedCoins (modelKey f) coins :=
    List.mem_filter.mpr ⟨hmem, by rw [hok]; rfl⟩
  have hunav : info ∈ unavailableCoins caps (modelKey f) coins :=
    List.mem_filter.mpr ⟨hsup, hmiss⟩
  have h3 : getKey (stage3List caps (fwTriple f) (modelKey f) coins)
      (toLowerString info.shortcut)
      = getKey (stage2List caps (modelKey f) coins) (toLowerString info.shortcut) := by
    unfold stage3List
    apply getKey_foldIf_untouched
    intro j hj _ hgj
    have hj1 := List.mem_filter.mp hj
    have hj2 := (mem_supportedCoins hj1.1).1
    have hji : j = info := inj j hj2 info hmem hgj
    have hnu := hj1.2
    rw [hji] at hnu
    simp [hunav] at hnu
  have h2 : getKey (stage2List caps (modelKey f) coins) (toLowerString info.shortcut)
      = some "no-capability" := by
    unfold stage2List
    exact getKey_foldSet_written _ _ _ _ _ ⟨info, hunav, rfl⟩
  rw [h3, h2]

theorem c1_stage_overwrite_witness :
    capabilityMissing []
        ⟨"bitcoin", "Bitcoin", "BTC", some [("trezor2", SupportValue.vstr [9, 9, 9])]⟩ = true ∧
      versionCompare [9, 9, 9] (fwTriple ⟨some [], 2, 0, 0⟩) > 0 ∧
      getKey (stage3List [] (fwTriple ⟨some [], 2, 0, 0⟩) (modelKey ⟨some [], 2, 0, 0⟩)
          [⟨"bitcoin", "Bitcoin", "BTC", some [("trezor2", SupportValue.vstr [9, 9, 9])]⟩])
        (toLowerString "BTC") = some "no-capability" :=
  ⟨by decide, by decide,
    (c1_stage_overwrite ⟨some [], 2, 0, 0⟩
      [⟨"bitcoin", "Bitcoin", "BTC", some [("trezor2", SupportValue.vstr [9, 9, 9])]⟩]
      [] ⟨"bitcoin", "Bitcoin", "BTC", some [("trezor2", SupportValue.vstr [9, 9, 9])]⟩
      rfl (by decide) (by decide) (by decide) (by decide)).2⟩

/-- **C1** (counterexample to the claim as stated).  An asset marked
`"no-capability"` in stage 2 whose stage-3 version-range check also fails
(support minimum `[9,9,9]` is newer than firmware `2.0.0`) nevertheless ends
with reason `"no-capability"`, not `"update-required"`: stage 3 skips coins
already in `unavailable`. -/
theorem c1_counterexample :
    versionCompare [9, 9, 9] [2, 0, 0] > 0 ∧
      getUnavailableCapabilities ⟨some [], 2, 0, 0⟩
        [⟨"bitcoin", "Bitcoin", "BTC", some [("trezor2", SupportValue.vstr [9, 9, 9])]⟩] [] =
        [("btc", "no-capability")] ∧
      getKey (getUnavailableCapabilities ⟨some [], 2, 0, 0⟩
          [⟨"bitcoin", "Bitcoin", "BTC", some [("trezor2", SupportValue.vstr [9, 9, 9])]⟩] [])
        "btc" ≠ some "update-required" :=
  ⟨by decide, by decide, by decide⟩

/-- **C2** (amended).  An asset without a string support entry under the
model key is marked `"no-support"` by stage 1 and, being excluded from
stages 2–3, still carries that reason in the stages-1–3 report — for every
device capability list and version — provided no other catalog entry shares
its lower-cased shortcut. -/
theorem c2_no_support_persists (f : ResolveFeatures) (coins : List CoinInfo)
    (caps : List String) (info : CoinInfo)
    (_hcaps : f.capabilities = some caps)
    (hnd : (coins.map fun i => toLowerString i.shortcut).Nodup)
    (hmem : info ∈ coins)
    (hfail : noStringSupport (modelKey f) info = true) :
    getKey (stage3List caps (fwTriple f) (modelKey f) coins)
      (toLowerString info.shortcut) = some "no-support" := by
  have inj := eq_of_nodup_map (fun i => toLowerString i.shortcut) coins hnd
  have h3 : getKey (stage3List caps (fwTriple f) (modelKey f) coins)
      (toLowerString info.shortcut)
      = getKey (stage2List caps (modelKey f) coins) (toLowerString info.shortcut) := by
    unfold stage3List
    apply getKey_foldIf_untouched
    intro j hj _ hgj
    have hj1 := List.mem_filter.mp hj
    have hj2 := mem_supportedCoins hj1.1
    have hji : j = info := inj j hj2.1 info hmem hgj
    have hns := hj2.2
    rw [hji, hfail] at hns
    exact absurd hns (by decide)
  have h2 : getKey (stage2List caps (modelKey f) coins) (toLowerString info.shortcut)
      = getKey (stage1List (modelKey f) coins) (toLowerString info.shortcut) := by
    unfold stage2List
    apply getKey_foldSet_untouched
    intro j hj hgj
    have hj2 := mem_supportedCoins (List.mem_filter.mp hj).1
    have hji : j = info := inj j hj2.1 info hmem hgj
    have hns := hj2.2
    rw [hji, hfail] at hns
    exact absurd hns (by decide)
  have h1 : getKey (stage1List (modelKey f) coins) (toLowerString info.shortcut)
      = some "no-support" := by
    unfold stage1List
    exact getKey_foldIf_written _ _ _ _ _ _ ⟨info, hmem, hfail, rfl⟩
  rw [h3, h2, h1]

theorem c2_no_support_persists_witness :
    noStringSupport (modelKey ⟨some [], 2, 0, 0⟩) ⟨"misc", "Foocoin", "FOO", none⟩ = true ∧
      getKey (stage3List [] (fwTriple ⟨some [], 2, 0, 0⟩) (modelKey ⟨some [], 2, 0, 0⟩)
          [⟨"misc", "Foocoin", "FOO", none⟩])
        (toLowerString "FOO") = some "no-support" :=
  ⟨by decide,
    c2_no_support_persists ⟨some [], 2, 0, 0⟩ [⟨"misc", "Foocoin", "FOO", none⟩] []
      ⟨"misc", "Foocoin", "FOO", none⟩ rfl (by decide) (by decide) (by decide)⟩

/-- **C2** (counterexample to the claim as stated).  When another catalog
entry shares the same lower-cased identifier, the `"no-support"` mark of an
asset without a support entry *is* changed by stage 2: here the first coin
(shortcut `"BTC"`, no support object) is marked `"no-support"`, then the
second coin (shortcut `"btc"`, supported but lacking the Bitcoin capability)
overwrites the shared key `"btc"` with `"no-capability"`. -/
theorem c2_counterexample :
    noStringSupport "trezor2" ⟨"bitcoin", "Foo", "BTC", none⟩ = true ∧
      getUnavailableCapabilities ⟨some [], 2, 0, 0⟩
        [⟨"bitcoin", "Foo", "BTC", none⟩,
         ⟨"bitcoin", "Bitcoin", "btc", some [("trezor2", SupportValue.vstr [1, 0, 0])]⟩] [] =
        [("btc", "no-capability")] ∧
      getKey (getUnavailableCapabilities ⟨some [], 2, 0, 0⟩
          [⟨"bitcoin", "Foo", "BTC", none⟩,
           ⟨"bitcoin", "Bitcoin", "btc", some [("trezor2", SupportValue.vstr [1, 0, 0])]⟩] [])
        (toLowerString "BTC") ≠ some "no-support" :=
  ⟨by decide, by decide, by decide⟩

/-! ## C3: stage-4 capability-group gating -/

theorem getKey_foldSetId_written (v : String) (caps : List String) (l : Report)
    (c : String) (hc : c ∈ caps) :
    getKey (caps.foldl (fun l c => setKey l c v) l) c = some v :=
  getKey_foldSet_written (fun c => c) v caps l c ⟨c, hc, rfl⟩

theorem maxBoundMark_skip (fw : List Nat) (caps : List String) (l : Report)
    (maxB : Option (List Nat))
    (hmax : ∀ mx, maxB = some mx → ¬ versionCompare mx fw < 0) :
    maxBoundMark fw caps l maxB = l := by
  cases maxB with
  | none => rfl
  | some mx =>
    show (if versionCompare mx fw < 0 then
        caps.foldl (fun l c => setKey l c "trezor-connect-outdated") l
      else l) = l
    rw [if_neg (hmax mx rfl)]

theorem getKey_maxBoundMark_written (fw : List Nat) (caps : List String) (l : Report)
    (mx : List Nat) (hcmp : versionCompare mx fw < 0) (c : String) (hc : c ∈ caps) :
    getKey (maxBoundMark fw caps l (some mx)) c = some "trezor-connect-outdated" := by
  show getKey (if versionCompare mx fw < 0 then
      caps.foldl (fun l c => setKey l c "trezor-connect-outdated") l
    else l) c = _
  rw [if_pos hcmp]
  exact getKey_foldSetId_written _ _ _ _ hc

theorem getKey_minBoundMark_sentinel (fw : List Nat) (caps : List String) (l : Report)
    (c : String) (hc : c ∈ caps) :
    getKey (minBoundMark fw caps l (some [0])) c = some "no-support" := by
  show getKey (if ([0] : List Nat) = [0] ∨ versionCompare [0] fw > 0 then
      caps.foldl
        (fun l c => setKey l c (if ([0] : List Nat) = [0] then "no-support" else "update-required")) l
    else l) c = _
  rw [if_pos (Or.inl rfl), if_pos (show ([0] : List Nat) = [0] from rfl)]
  exact getKey_foldSetId_written _ _ _ _ hc

theorem getKey_minBoundMark_update (fw : List Nat) (caps : List String) (l : Report)
    (m : List Nat) (hne : m ≠ [0]) (hcmp : versionCompare m fw > 0)
    (c : String) (hc : c ∈ caps) :
    getKey (minBoundMark fw caps l (some m)) c = some "update-required" := by
  show getKey (if m = [0] ∨ versionCompare m fw > 0 then
      caps.foldl
        (fun l c => setKey l c (if m = [0] then "no-support" else "update-required")) l
    else l) c = _
  rw [if_pos (Or.inr hcmp), if_neg hne]
  exact getKey_foldSetId_written _ _ _ _ hc

/-- **C3** (amended).  Stage 4 of `getUnavailableCapabilities`, for a support
entry with a capability group: if the minimum bound for the device's major
version exists and is the sentinel `"0"`, every capability of the group ends
marked `"no-support"`; if it exists, is not the sentinel, and is newer than
the device version, every capability ends marked `"update-required"` — in
both cases *provided the entry's maximum-bound check does not also fire*
(the maximum branch runs second and overwrites); and if the maximum bound
exists and is older than the device version, every capability ends marked
`"trezor-connect-outdated"`, unconditionally. -/
theorem c3_support_range_gating (f : ResolveFeatures) (coins : List CoinInfo)
    (s : SupportEntry) (capsF caps : List String)
    (hf : f.capabilities = some capsF) (hs : s.capabilities = some caps) :
    ((∀ m, boundFor s.min f.major_version = some m → m = [0] →
        (∀ mx, boundFor s.max f.major_version = some mx →
          ¬ versionCompare mx (fwTriple f) < 0) →
        ∀ c ∈ caps,
          getKey (getUnavailableCapabilities f coins [s]) c = some "no-support") ∧
      (∀ m, boundFor s.min f.major_version = some m → m ≠ [0] →
        versionCompare m (fwTriple f) > 0 →
        (∀ mx, boundFor s.max f.major_version = some mx →
          ¬ versionCompare mx (fwTriple f) < 0) →
        ∀ c ∈ caps,
          getKey (getUnavailableCapabilities f coins [s]) c = some "update-required") ∧
      (∀ mx, boundFor s.max f.major_version = some mx →
        versionCompare mx (fwTriple f) < 0 →
        ∀ c ∈ caps,
          getKey (getUnavailableCapabilities f coins [s]) c =
            some "trezor-connect-outdated")) := by
  obtain ⟨fcaps, maj, mi, pa⟩ := f
  have hf1 : fcaps = some capsF := hf
  subst hf1
  obtain ⟨scaps, smin, smax⟩ := s
  have hs1 : scaps = some caps := hs
  subst hs1
  refine ⟨?_, ?_, ?_⟩
  · intro m hmin hm0 hmaxnot c hc
    subst hm0
    have hmin1 : boundFor smin maj = some [0] := hmin
    have hmax1 : ∀ mx, boundFor smax maj = some mx →
        ¬ versionCompare mx (fwTriple ⟨some capsF, maj, mi, pa⟩) < 0 := hmaxnot
    show getKey (maxBoundMark (fwTriple ⟨some capsF, maj, mi, pa⟩) caps
        (minBoundMark (fwTriple ⟨some capsF, maj, mi, pa⟩) caps
          (stage3List capsF (fwTriple ⟨some capsF, maj, mi, pa⟩)
            (modelKey ⟨some capsF, maj, mi, pa⟩) coins)
          (boundFor smin maj))
        (boundFor smax maj)) c = some "no-support"
    rw [hmin1, maxBoundMark_skip _ _ _ _ hmax1]
    exact getKey_minBoundMark_sentinel _ _ _ _ hc
  · intro m hmin hne hcmp hmaxnot c hc
    have hmin1 : boundFor smin maj = some m := hmin
    have hmax1 : ∀ mx, boundFor smax maj = some mx →
        ¬ versionCompare mx (fwTriple ⟨some capsF, maj, mi, pa⟩) < 0 := hmaxnot
    show getKey (maxBoundMark (fwTriple ⟨some capsF, maj, mi, pa⟩) caps
        (minBoundMark (fwTriple ⟨some capsF, maj, mi, pa⟩) caps
          (stage3List capsF (fwTriple ⟨some capsF, maj, mi, pa⟩)
            (modelKey ⟨some capsF, maj, mi, pa⟩) coins)
          (boundFor smin maj))
        (boundFor smax maj)) c = some "update-required"
    rw [hmin1, maxBoundMark_skip _ _ _ _ hmax1]
    exact getKey_minBoundMark_update _ _ _ _ hne hcmp _ hc
  · intro mx hmax hcmp c hc
    have hmax1 : boundFor smax maj = some mx := hmax
    show getKey (maxBoundMark (fwTriple ⟨some capsF, maj, mi, pa⟩) caps
        (minBoundMark (fwTriple ⟨some capsF, maj, mi, pa⟩) caps
          (stage3List capsF (fwTriple ⟨some capsF, maj, mi, pa⟩)
            (modelKey ⟨some capsF, maj, mi, pa⟩) coins)
          (boundFor smin maj))
        (boundFor smax maj)) c = some "trezor-connect-outdated"
    rw [hmax1]
    exact getKey_maxBoundMark_written _ _ _ _ hcmp _ hc

theorem c3_support_range_gating_witness :
    boundFor (some [none, some [2, 1, 0]]) 2 = some [2, 1, 0] ∧
      versionCompare [2, 1, 0] (fwTriple ⟨some [], 2, 0, 0⟩) > 0 ∧
      getKey (getUnavailableCapabilities ⟨some [], 2, 0, 0⟩ []
          [⟨some ["Capability_Monero"], some [none, some [2, 1, 0]], none⟩])
        "Capability_Monero" = some "update-required" :=
  ⟨by decide, by decide,
    (c3_support_range_gating ⟨some [], 2, 0, 0⟩ []
        ⟨some ["Capability_Monero"], some [none, some [2, 1, 0]], none⟩ [] ["Capability_Monero"]
        rfl rfl).2.1
      [2, 1, 0] (by decide) (by decide) (by decide)
      (by intro mx h; simp [boundFor] at h) "Capability_Monero" (by decide)⟩

/-- **C3** (counterexample to the claim as stated).  A support entry whose
minimum bound is the sentinel `"0"` *and* whose maximum bound is older than
the device version leaves every capability of the group marked
`"trezor-connect-outdated"`, not `"no-support"`: the maximum branch runs
after the minimum branch and overwrites its marks. -/
theorem c3_counterexample :
    boundFor (some [some [0]]) 1 = some [0] ∧
      getUnavailableCapabilities ⟨some [], 1, 0, 0⟩ []
        [⟨some ["Capability_Cardano"], some [some [0]], some [some [0, 5]]⟩] =
        [("Capability_Cardano", "trezor-connect-outdated")] ∧
      getKey (getUnavailableCapabilities ⟨some [], 1, 0, 0⟩ []
          [⟨some ["Capability_Cardano"], some [some [0]], some [some [0, 5]]⟩])
        "Capability_Cardano" ≠ some "no-support" :=
  ⟨by decide, by decide, by decide⟩

/-! ## Cardano witness paths (`gatherWitnessPaths`) -/

/-- Modelled from the spec: `Enum_CardanoCertificateType` is imported from
the protobuf type definitions, a repository file not included under `src/`.
The code and spec need only four distinct certificate kinds; stake
delegation and stake deregistration are the qualifying ones. -/
inductive CardanoCertificateType where
  | STAKE_REGISTRATION
  | STAKE_DEREGISTRATION
  | STAKE_DELEGATION
  | STAKE_POOL_REGISTRATION
deriving DecidableEq

/-- A derivation path value, or `none` for an absent (`undefined`) path.
`JSON.stringify` is injective on present path values and maps `undefined` to
`undefined`, so the string key of the source's `Map` is modelled by the
value itself. -/
abbrev PathR := Option (List Nat)

structure InputWithPath where
  path : PathR
deriving DecidableEq

structure CardanoCertificate where
  type : CardanoCertificateType
  path : PathR
deriving DecidableEq

structure PoolOwner where
  staking_key_path : PathR
deriving DecidableEq

structure CertificateWithPoolOwnersAndRelays where
  certificate : CardanoCertificate
  poolOwners : List PoolOwner
deriving DecidableEq

structure CardanoTxWithdrawal where
  path : PathR
deriving DecidableEq

/-- `_insert`: `witnessPaths.set(JSON.stringify(path), path)`.  Setting an
already-present key rewrites the same value at its original position, so the
map is unchanged; a new key is appended. -/
def mapInsert (m : List PathR) (p : PathR) : List PathR :=
  if p ∈ m then m else m ++ [p]

/-- Folding `mapInsert` over an insertion sequence (first-occurrence
deduplication keeping insertion order). -/
def insertAll (m : List PathR) (ps : List PathR) : List PathR := ps.foldl mapInsert m

/-- Shallow embedding of `gatherWitnessPaths`: inputs (guarded on path
presence), then per certificate its declared path (guarded on presence and
qualifying type) followed by its pool-owner staking-key paths (guarded on
presence), then every withdrawal's path unguarded; the result is the map's
values in insertion order. -/
def gatherWitnessPaths (inputsWithPath : List InputWithPath)
    (certificatesWithPoolOwnersAndRelays : List CertificateWithPoolOwnersAndRelays)
    (withdrawals : List CardanoTxWithdrawal) : List PathR :=
  let m1 := inputsWithPath.foldl
    (fun m i => if i.path.isSome then mapInsert m i.path else m) []
  let m2 := certificatesWithPoolOwnersAndRelays.foldl
    (fun m c =>
      let mc :=
        if c.certificate.path.isSome ∧
            (c.certificate.type = CardanoCertificateType.STAKE_DELEGATION ∨
              c.certificate.type = CardanoCertificateType.STAKE_DEREGISTRATION) then
          mapInsert m c.certificate.path
        else m
      c.poolOwners.foldl
        (fun mm po =>
          if po.staking_key_path.isSome then mapInsert mm po.staking_key_path else mm)
        mc)
    m1
  withdrawals.foldl (fun m w => mapInsert m w.path) m2

/-- Claim-side: the contribution of one input to the insertion sequence. -/
def inputElemSeq (i : InputWithPath) : List PathR :=
  match i.path with
  | some p => [some p]
  | none => []

/-- Claim-side: all input-derived paths. -/
def inputPathSeq (inputsWithPath : List InputWithPath) : List PathR :=
  inputsWithPath.flatMap inputElemSeq

/-- Claim-side: the declared path of a qualifying certificate. -/
def certDeclElem (c : CertificateWithPoolOwnersAndRelays) : List PathR :=
  if c.certificate.path.isSome ∧
      (c.certificate.type = CardanoCertificateType.STAKE_DELEGATION ∨
        c.certificate.type = CardanoCertificateType.STAKE_DEREGISTRATION) then
    [c.certificate.path]
  else []

/-- Claim-side: the contribution of one pool owner. -/
def poolOwnerElemSeq (po : PoolOwner) : List PathR :=
  match po.staking_key_path with
  | some p => [some p]
  | none => []

/-- Claim-side: a certificate's pool-owner staking-key paths. -/
def poolOwnerSeq (c : CertificateWithPoolOwnersAndRelays) : List PathR :=
  c.poolOwners.flatMap poolOwnerElemSeq

/-- Claim-side: each withdrawal's path, with no presence guard. -/
def withdrawalPathSeq (withdrawals : List CardanoTxWithdrawal) : List PathR :=
  withdrawals.flatMap fun w => [w.path]

/-- The insertion sequence as the claim words it: all input-derived paths
first, then one declared path per qualifying certificate, then each
certificate's pool-owner staking-key paths, then each withdrawal's path —
with the two certificate-derived groups as successive phases over the whole
certificate list. -/
def specOrderSeq (inputsWithPath : List InputWithPath)
    (certs : List CertificateWithPoolOwnersAndRelays)
    (withdrawals : List CardanoTxWithdrawal) : List PathR :=
  inputPathSeq inputsWithPath ++ certs.flatMap certDeclElem ++
    certs.flatMap poolOwnerSeq ++ withdrawalPathSeq withdrawals

/-- First-occurrence deduplication of the claim-worded sequence. -/
def gatherWitnessPathsSpecOrder (inputsWithPath : List InputWithPath)
    (certs : List CertificateWithPoolOwnersAndRelays)
    (withdrawals : List CardanoTxWithdrawal) : List PathR :=
  insertAll [] (specOrderSeq inputsWithPath certs withdrawals)

/-- The amended per-certificate contribution: the declared path (when the
certificate qualifies) immediately followed by that same certificate's
pool-owner paths. -/
def certSeq (c : CertificateWithPoolOwnersAndRelays) : List PathR :=
  certDeclElem c ++ poolOwnerSeq c

/-- The amended insertion sequence: inputs, then the certificates one at a
time (each declared path before its own pool owners), then withdrawals. -/
def witnessInsertSeq (inputsWithPath : List InputWithPath)
    (certs : List CertificateWithPoolOwnersAndRelays)
    (withdrawals : List CardanoTxWithdrawal) : List PathR :=
  inputPathSeq inputsWithPath ++ certs.flatMap certSeq ++ withdrawalPathSeq withdrawals

theorem insertAll_append (m : List PathR) (a b : List PathR) :
    insertAll m (a ++ b) = insertAll (insertAll m a) b :=
  List.foldl_append mapInsert m a b

theorem foldl_insert_eq_insertAll {α : Type} (f : α → List PathR)
    (step : List PathR → α → List PathR)
    (hstep : ∀ m x, step m x = insertAll m (f x)) (l : List α) (m : List PathR) :
    l.foldl step m = insertAll m (l.flatMap f) := by
  induction l generalizing m with
  | nil => rfl
  | cons x t ih => rw [List.foldl_cons, hstep, List.flatMap_cons, insertAll_append, ih]

theorem input_step_eq (m : List PathR) (i : InputWithPath) :
    (if i.path.isSome then mapInsert m i.path else m) = insertAll m (inputElemSeq i) := by
  cases h : i.path with
  | none => simp [inputElemSeq, h, insertAll]
  | some p => simp [inputElemSeq, h, insertAll]

theorem poolOwner_step_eq (m : List PathR) (po : PoolOwner) :
    (if po.staking_key_path.isSome then mapInsert m po.staking_key_path else m)
      = insertAll m (poolOwnerElemSeq po) := by
  cases h : po.staking_key_path with
  | none => simp [poolOwnerElemSeq, h, insertAll]
  | some p => simp [poolOwnerElemSeq, h, insertAll]

theorem cert_step_eq (m : List PathR) (c : CertificateWithPoolOwnersAndRelays) :
    (c.poolOwners.foldl
        (fun mm po =>
          if po.staking_key_path.isSome then mapInsert mm po.staking_key_path else mm)
        (if c.certificate.path.isSome ∧
            (c.certificate.type = CardanoCertificateType.STAKE_DELEGATION ∨
              c.certificate.type = CardanoCertificateType.STAKE_DEREGISTRATION) then
          mapInsert m c.certificate.path
        else m))
      = insertAll m (certSeq c) := by
  rw [foldl_insert_eq_insertAll poolOwnerElemSeq _ poolOwner_step_eq]
  rw [certSeq, insertAll_append]
  congr 1
  unfold certDeclElem
  by_cases hcond : c.certificate.path.isSome ∧
      (c.certificate.type = CardanoCertificateType.STAKE_DELEGATION ∨
        c.certificate.type = CardanoCertificateType.STAKE_DEREGISTRATION)
  · rw [if_pos hcond, if_pos hcond]
    rfl
  · rw [if_neg hcond, if_neg hcond]
    rfl

/-- The three source loops flattened into one insertion sequence. -/
theorem gatherWitnessPaths_eq_insertAll (inputsWithPath : List InputWithPath)
    (certs : List CertificateWithPoolOwnersAndRelays)
    (withdrawals : List CardanoTxWithdrawal) :
    gatherWitnessPaths inputsWithPath certs withdrawals
      = insertAll [] (witnessInsertSeq inputsWithPath certs withdrawals) := by
  show withdrawals.foldl (fun m w => mapInsert m w.path)
      (certs.foldl
        (fun m c =>
          c.poolOwners.foldl
            (fun mm po =>
              if po.staking_key_path.isSome then mapInsert mm po.staking_key_path else mm)
            (if c.certificate.path.isSome ∧
                (c.certificate.type = CardanoCertificateType.STAKE_DELEGATION ∨
                  c.certificate.type = CardanoCertificateType.STAKE_DEREGISTRATION) then
              mapInsert m c.certificate.path
            else m))
        (inputsWithPath.foldl (fun m i => if i.path.isSome then mapInsert m i.path else m) []))
      = insertAll [] (witnessInsertSeq inputsWithPath certs withdrawals)
  rw [foldl_insert_eq_insertAll inputElemSeq _ input_step_eq,
    foldl_insert_eq_insertAll certSeq _ cert_step_eq,
    @foldl_insert_eq_insertAll CardanoTxWithdrawal (fun w => [w.path])
      (fun m w => mapInsert m w.path) (fun m w => rfl) withdrawals _,
    witnessInsertSeq, withdrawalPathSeq, inputPathSeq,
    insertAll_append, insertAll_append]

theorem mem_mapInsert (m : List PathR) (p x : PathR) :
    x ∈ mapInsert m p ↔ x ∈ m ∨ x = p := by
  unfold mapInsert
  by_cases h : p ∈ m
  · rw [if_pos h]
    constructor
    · exact Or.inl
    · rintro (hx | rfl)
      · exact hx
      · exact h
  · rw [if_neg h]
    simp [List.mem_append]

theorem mem_insertAll (m seq : List PathR) (x : PathR) :
    x ∈ insertAll m seq ↔ x ∈ m ∨ x ∈ seq := by
  induction seq generalizing m with
  | nil => simp [insertAll]
  | cons p t ih =>
    rw [insertAll, List.foldl_cons,
      show t.foldl mapInsert (mapInsert m p) = insertAll (mapInsert m p) t from rfl,
      ih, mem_mapInsert, List.mem_cons]
    tauto

theorem nodup_mapInsert (m : List PathR) (p : PathR) (h : m.Nodup) :
    (mapInsert m p).Nodup := by
  unfold mapInsert
  by_cases hp : p ∈ m
  · rw [if_pos hp]
    exact h
  · rw [if_neg hp]
    refine List.Nodup.append h (List.nodup_singleton p) ?_
    intro a ha hb
    rw [List.mem_singleton] at hb
    exact hp (hb ▸ ha)

theorem nodup_insertAll (m seq : List PathR) (h : m.Nodup) : (insertAll m seq).Nodup := by
  induction seq generalizing m with
  | nil => exact h
  | cons p t ih => exact ih _ (nodup_mapInsert m p h)

theorem not_none_mem_inputPathSeq (inputsWithPath : List InputWithPath) :
    none ∉ inputPathSeq inputsWithPath := by
  intro h
  rw [inputPathSeq, List.mem_flatMap] at h
  obtain ⟨i, _, hmem⟩ := h
  cases hp : i.path with
  | none => simp [inputElemSeq, hp] at hmem
  | some p => simp [inputElemSeq, hp] at hmem

theorem not_none_mem_certSeq (certs : List CertificateWithPoolOwnersAndRelays) :
    none ∉ certs.flatMap certSeq := by
  intro h
  rw [List.mem_flatMap] at h
  obtain ⟨c, _, hmem⟩ := h
  rw [certSeq, List.mem_append] at hmem
  rcases hmem with hmem | hmem
  · rw [certDeclElem] at hmem
    by_cases hcond : c.certificate.path.isSome ∧
        (c.certificate.type = CardanoCertificateType.STAKE_DELEGATION ∨
          c.certificate.type = CardanoCertificateType.STAKE_DEREGISTRATION)
    · rw [if_pos hcond, List.mem_singleton] at hmem
      rw [← hmem] at hcond
      exact absurd hcond.1 (by decide)
    · rw [if_neg hcond] at hmem
      exact absurd hmem (List.not_mem_nil none)
  · rw [poolOwnerSeq, List.mem_flatMap] at hmem
    obtain ⟨po, _, hpo⟩ := hmem
    cases hp : po.staking_key_path with
    | none => simp [poolOwnerElemSeq, hp] at hpo
    | some p => simp [poolOwnerElemSeq, hp] at hpo

/-- **C9** (amended).  `gatherWitnessPaths` returns the first-occurrence
deduplication (by structural path equality) of the insertion sequence whose
order is: all input-derived paths, then the certificates **one at a time** —
each qualifying certificate's declared path immediately followed by that
same certificate's pool-owner staking-key paths —, then each withdrawal's
path; and the output has no duplicate entries. -/
theorem c9_witness_path_order (inputsWithPath : List InputWithPath)
    (certs : List CertificateWithPoolOwnersAndRelays)
    (withdrawals : List CardanoTxWithdrawal) :
    gatherWitnessPaths inputsWithPath certs withdrawals
        = insertAll [] (witnessInsertSeq inputsWithPath certs withdrawals) ∧
      (gatherWitnessPaths inputsWithPath certs withdrawals).Nodup := by
  refine ⟨gatherWitnessPaths_eq_insertAll _ _ _, ?_⟩
  rw [gatherWitnessPaths_eq_insertAll]
  exact nodup_insertAll _ _ List.nodup_nil

/-- **C9** (counterexample to the claim as stated).  Reading the claim's
insertion sequence as four successive phases (inputs, all qualifying
declared certificate paths, all pool-owner paths, withdrawals) contradicts
the code: a delegation certificate with declared path `[1]` and a pool owner
at `[2]`, followed by a deregistration certificate with declared path `[3]`,
yields `[1], [2], [3]` in the code (per-certificate interleaving) but
`[1], [3], [2]` in the phase reading. -/
theorem c9_counterexample :
    gatherWitnessPaths []
        [⟨⟨CardanoCertificateType.STAKE_DELEGATION, some [1]⟩, [⟨some [2]⟩]⟩,
         ⟨⟨CardanoCertificateType.STAKE_DEREGISTRATION, some [3]⟩, []⟩] [] =
        [some [1], some [2], some [3]] ∧
      gatherWitnessPathsSpecOrder []
        [⟨⟨CardanoCertificateType.STAKE_DELEGATION, some [1]⟩, [⟨some [2]⟩]⟩,
         ⟨⟨CardanoCertificateType.STAKE_DEREGISTRATION, some [3]⟩, []⟩] [] =
        [some [1], some [3], some [2]] ∧
      gatherWitnessPaths []
          [⟨⟨CardanoCertificateType.STAKE_DELEGATION, some [1]⟩, [⟨some [2]⟩]⟩,
           ⟨⟨CardanoCertificateType.STAKE_DEREGISTRATION, some [3]⟩, []⟩] [] ≠
        gatherWitnessPathsSpecOrder []
          [⟨⟨CardanoCertificateType.STAKE_DELEGATION, some [1]⟩, [⟨some [2]⟩]⟩,
           ⟨⟨CardanoCertificateType.STAKE_DEREGISTRATION, some [3]⟩, []⟩] [] :=
  ⟨by decide, by decide, by decide⟩

/-- **C10.**  `gatherWitnessPaths` skips inputs (and certificate-derived
entries) with an absent path, but inserts every withdrawal's path with no
presence guard: the absent value appears in the output exactly when some
withdrawal has an absent path. -/
theorem c10_withdrawal_unguarded (inputsWithPath : List InputWithPath)
    (certs : List CertificateWithPoolOwnersAndRelays)
    (withdrawals : List CardanoTxWithdrawal) :
    none ∈ gatherWitnessPaths inputsWithPath certs withdrawals ↔
      ∃ w ∈ withdrawals, w.path = none := by
  rw [gatherWitnessPaths_eq_insertAll, mem_insertAll, witnessInsertSeq,
    List.mem_append, List.mem_append]
  constructor
  · rintro (h | (h | h) | h)
    · exact absurd h (List.not_mem_nil none)
    · exact absurd h (not_none_mem_inputPathSeq inputsWithPath)
    · exact absurd h (not_none_mem_certSeq certs)
    · rw [withdrawalPathSeq, List.mem_flatMap] at h
      obtain ⟨w, hw, hmem⟩ := h
      rw [List.mem_singleton] at hmem
      exact ⟨w, hw, hmem.symm⟩
  · rintro ⟨w, hw, hp⟩
    refine Or.inr (Or.inr ?_)
    rw [withdrawalPathSeq, List.mem_flatMap]
    exact ⟨w, hw, by rw [hp]; exact List.mem_singleton.mpr rfl⟩

end Connect
